import Mathlib

/-!
Verification of the filename-sanitization and converter-invocation logic of
the `my-python-project-saomiao` diagnostic scripts.

Python strings are modelled as `List Char` (a Python `str` is a sequence of
Unicode code points, and every operation used by the scripts — `replace`,
`strip`, slicing, `len` — works on code points).  Each definition mirrors one
Python function from the sources under `src/`.
-/

namespace Saomiao

/-- The forbidden characters of `new_sanitize_filename` / `_sanitize_filename`:
the Python literal `'<>:"|?*\\/'` (src/tests/debug_filename.py line 20,
src/tests/debug_app_flow.py line 27). -/
def forbidden_chars : List Char := ['<', '>', ':', '"', '|', '?', '*', '\\', '/']

/-- The control characters: `''.join(chr(i) for i in range(32))`
(src/tests/debug_filename.py line 21). -/
def control_chars : List Char := (List.range 32).map Char.ofNat

/-- Python `s.replace(c, '')` for a single character `c`: every occurrence of
`c` is deleted. -/
def removeChar (s : List Char) (c : Char) : List Char :=
  s.filter (fun x => x ≠ c)

/-- The deletion loop `for char in forbidden_chars + control_chars:
sane_name = sane_name.replace(char, '')` (src/tests/debug_filename.py
lines 24-25). -/
def removeAll (s : List Char) : List Char :=
  (forbidden_chars ++ control_chars).foldl removeChar s

/-- The strip set of `sane_name.strip(' .')`: a space or a dot. -/
def isStripChar (c : Char) : Bool := c = ' ' || c = '.'

/-- Python `s.strip(' .')`: remove leading and trailing characters drawn from
`{' ', '.'}` (src/tests/debug_filename.py line 27). -/
def stripDots (s : List Char) : List Char :=
  ((s.dropWhile isStripChar).reverse.dropWhile isStripChar).reverse

/-- The fallback name returned for an empty sanitized result
(src/tests/debug_filename.py line 30). -/
def scanned_document : List Char := "scanned_document".toList

/-- `new_sanitize_filename` of src/tests/debug_filename.py lines 18-35,
identical to `_sanitize_filename` of src/tests/debug_app_flow.py lines 24-42:
delete forbidden and control characters, strip leading/trailing spaces and
dots, fall back to `"scanned_document"` when empty, truncate to 200
characters when longer. -/
def new_sanitize_filename (filename : List Char) : List Char :=
  let sane₁ := removeAll filename
  let sane₂ := stripDots sane₁
  if sane₂ = [] then scanned_document
  else if sane₂.length > 200 then sane₂.take 200
  else sane₂

/-- `_sanitize_filename` of src/tests/debug_app_flow.py lines 24-42 is the
same code as `new_sanitize_filename` of src/tests/debug_filename.py. -/
def _sanitize_filename (filename : List Char) : List Char :=
  new_sanitize_filename filename

example : new_sanitize_filename "My Document".toList = "My Document".toList := by decide
example : new_sanitize_filename "文档<>:tests".toList = "文档tests".toList := by decide
example : new_sanitize_filename "".toList = scanned_document := by decide
example : new_sanitize_filename " ..  ".toList = scanned_document := by decide
example : new_sanitize_filename "a.txt".toList = "a.txt".toList := by decide

/-- `old_sanitize_filename` of src/tests/debug_filename.py lines 14-15:
`re.sub(r'[^\w.\-]', '', filename)` keeps exactly the characters matching the
regex class `\w`, plus dots and hyphens, and deletes everything else.  On a
Python `str`, `\w` is the Unicode word-character class — the alphanumeric
characters of the Unicode character database together with the underscore —
whose extension an embedding cannot enumerate, so the class is a parameter:
every theorem about this function assumes of `wordClass` only properties that
hold of every Unicode word character. -/
def old_sanitize_filename (wordClass : Char → Bool) (filename : List Char) : List Char :=
  filename.filter (fun c => wordClass c || c = '.' || c = '-')

/-- A concrete sample subclass of the Unicode word-character class `\w`, used
to instantiate parametric theorems: ASCII letters, ASCII digits, the
underscore, and the CJK Unified Ideographs block U+4E00 – U+9FFF (every one of
these characters matches `\w`). -/
def sampleWordChar (c : Char) : Bool :=
  (65 ≤ c.toNat && c.toNat ≤ 90) || (97 ≤ c.toNat && c.toNat ≤ 122) ||
  (48 ≤ c.toNat && c.toNat ≤ 57) || c.toNat = 95 ||
  (0x4E00 ≤ c.toNat && c.toNat ≤ 0x9FFF)

example : old_sanitize_filename sampleWordChar "My Document".toList = "MyDocument".toList := by decide
example : old_sanitize_filename sampleWordChar "测试文档".toList = "测试文档".toList := by decide
example : old_sanitize_filename sampleWordChar "normal_file.txt".toList = "normal_file.txt".toList := by decide

/-- The index of the last occurrence of `c` in `p`, as Python `p.rfind(c)`:
`-1` when `c` does not occur. -/
def rfindIdx (p : List Char) (c : Char) : Int :=
  (p.foldl (fun (acc : Int × Int) x => (if x = c then acc.2 else acc.1, acc.2 + 1)) (-1, 0)).1

example : rfindIdx "ab.c.d".toList '.' = 4 := by decide
example : rfindIdx "abc".toList '.' = -1 := by decide

/-- The root part of `os.path.splitext` with the Windows separators
(`sep = '\\'`, `altsep = '/'`, `extsep = '.'`): split off the extension at
the last dot, unless that dot lies at or before the last path separator or
the base name consists only of dots up to it (ntpath `splitext`, used at
src/tests/debug_app_flow.py line 46). -/
def splitextRoot (p : List Char) : List Char :=
  let sepIndex := max (rfindIdx p '\\') (rfindIdx p '/')
  let dotIndex := rfindIdx p '.'
  if dotIndex > sepIndex then
    if ((p.take dotIndex.toNat).drop (sepIndex + 1).toNat).any (fun x => x ≠ '.') then
      p.take dotIndex.toNat
    else p
  else p

example : splitextRoot "未知文件.jpg".toList = "未知文件".toList := by decide
example : splitextRoot "a.b.c".toList = "a.b".toList := by decide
example : splitextRoot ".bashrc".toList = ".bashrc".toList := by decide
example : splitextRoot "dir.x\\file".toList = "dir.x\\file".toList := by decide
example : splitextRoot "noext".toList = "noext".toList := by decide

/-- The default filename handed to the save dialog in `simulate_app_flow`
(src/tests/debug_app_flow.py lines 44-48): the base name of the OCR file name
without extension, sanitized, with `".docx"` appended. -/
def simulate_default_filename (file_name : List Char) : List Char :=
  let base_name := splitextRoot file_name
  let sanitized_base_name := _sanitize_filename base_name
  sanitized_base_name ++ ".docx".toList

example : simulate_default_filename "未知文件.jpg".toList = "未知文件.docx".toList := by decide

/-- The converter command built by `test_pandoc_encoding`
(src/debug_pandoc.py lines 40-46). -/
def pandoc_cmd_debug (pandoc_exe input_file output_path : String) : List String :=
  [pandoc_exe, input_file, "-o", output_path, "--from", "markdown", "--to", "docx"]

/-- The converter command built by `simulate_pandoc_call`
(src/tests/debug_app_flow.py lines 113-120). -/
def pandoc_cmd_app_flow (pandoc_exe input_file output_path : String) : List String :=
  [pandoc_exe, input_file, "-o", output_path,
   "--from", "gfm+pipe_tables+hard_line_breaks", "--to", "docx", "--wrap=none"]

/-- The reference sanitizer from the specification, in the spec's order:
(1) delete every occurrence of the forbidden characters and of the code
points 0-31, (2) strip leading and trailing spaces and dots, (3) return
"scanned_document" when empty, (4) otherwise truncate to the first 200
characters. -/
def sanitize_ref (s : List Char) : List Char :=
  let deleted := s.filter (fun c => !(c ∈ forbidden_chars || c.toNat < 32))
  let stripped := stripDots deleted
  if stripped = [] then scanned_document
  else stripped.take 200

/-! ## Helper lemmas -/

/-- The deletion loop is a single filter: folding `removeChar` over a list of
characters deletes exactly the characters of that list. -/
theorem foldl_removeChar_eq_filter (cs : List Char) (s : List Char) :
    cs.foldl removeChar s = s.filter (fun x => !decide (x ∈ cs)) := by
  induction cs generalizing s with
  | nil => simp
  | cons c cs ih =>
      rw [List.foldl_cons, ih]
      unfold removeChar
      rw [List.filter_filter]
      apply List.filter_congr
      intro x _
      by_cases hc : x = c <;> by_cases hm : x ∈ cs <;> simp [hc, hm]

/-- Membership in `control_chars` is exactly having a code point below 32. -/
theorem mem_control_chars (c : Char) : c ∈ control_chars ↔ c.toNat < 32 := by
  constructor
  · intro h
    simp only [control_chars, List.mem_map, List.mem_range] at h
    obtain ⟨n, hn, rfl⟩ := h
    have hv : ∀ m, m < 32 → (Char.ofNat m).toNat = m := by decide
    rw [hv n hn]
    exact hn
  · intro h
    simp only [control_chars, List.mem_map, List.mem_range]
    exact ⟨c.toNat, h, Char.ofNat_toNat c⟩

/-- Characterization of `removeAll`: a character survives iff it was present,
is not forbidden and is not a control character. -/
theorem mem_removeAll (s : List Char) (x : Char) :
    x ∈ removeAll s ↔ x ∈ s ∧ x ∉ forbidden_chars ∧ 32 ≤ x.toNat := by
  unfold removeAll
  rw [foldl_removeChar_eq_filter, List.mem_filter]
  simp only [List.mem_append, mem_control_chars, Bool.not_eq_eq_eq_not, Bool.not_true,
    decide_eq_false_iff_not, not_or, not_lt]

/-- `removeAll` keeps a string made of clean characters unchanged. -/
theorem removeAll_eq_self (s : List Char)
    (h : ∀ c ∈ s, c ∉ forbidden_chars ∧ 32 ≤ c.toNat) :
    removeAll s = s := by
  unfold removeAll
  rw [foldl_removeChar_eq_filter]
  apply List.filter_eq_self.mpr
  intro a ha
  simp only [Bool.not_eq_true', decide_eq_false_iff_not, List.mem_append, mem_control_chars,
    not_or, not_lt]
  exact ⟨(h a ha).1, (h a ha).2⟩

/-- The head of a `dropWhile` result does not satisfy the predicate. -/
theorem dropWhile_head_not (p : Char → Bool) (l : List Char) :
    ∀ x ∈ (l.dropWhile p).head?, p x = false := by
  induction l with
  | nil => simp
  | cons a l ih =>
      rw [List.dropWhile_cons]
      split
      · exact ih
      · intro x hx
        simp only [List.head?_cons, Option.mem_def, Option.some.injEq] at hx
        subst hx
        simp_all

/-- `dropWhile` keeps the last element when its result is non-empty. -/
theorem dropWhile_getLast_eq (p : Char → Bool) (l : List Char)
    (h : l.dropWhile p ≠ []) :
    (l.dropWhile p).getLast? = l.getLast? := by
  obtain ⟨r, hr⟩ := List.dropWhile_suffix p (l := l)
  conv_rhs => rw [← hr]
  rw [List.getLast?_append_of_ne_nil r h]

/-- `dropWhile` is the identity on a list whose head does not satisfy the
predicate. -/
theorem dropWhile_eq_self_of_head (p : Char → Bool) (l : List Char)
    (h : ∀ x ∈ l.head?, p x = false) :
    l.dropWhile p = l := by
  cases l with
  | nil => rfl
  | cons a l =>
      have ha := h a (by simp)
      rw [List.dropWhile_cons, if_neg (by simp [ha])]

/-- `stripDots` only deletes characters: every surviving character occurs in
the input. -/
theorem mem_stripDots (s : List Char) (x : Char) (h : x ∈ stripDots s) : x ∈ s := by
  unfold stripDots at h
  rw [List.mem_reverse] at h
  have h1 := (List.dropWhile_suffix isStripChar).subset h
  rw [List.mem_reverse] at h1
  exact (List.dropWhile_suffix isStripChar).subset h1

/-- The first character of a non-empty `stripDots` result is neither a space
nor a dot. -/
theorem stripDots_head_not (s : List Char) :
    ∀ x ∈ (stripDots s).head?, isStripChar x = false := by
  intro x hx
  unfold stripDots at hx
  rw [List.head?_reverse] at hx
  by_cases hu : (s.dropWhile isStripChar).reverse.dropWhile isStripChar = []
  · rw [hu] at hx
    simp at hx
  · rw [dropWhile_getLast_eq isStripChar _ hu, List.getLast?_reverse] at hx
    exact dropWhile_head_not isStripChar _ x hx

/-- The last character of a non-empty `stripDots` result is neither a space
nor a dot. -/
theorem stripDots_getLast_not (s : List Char) :
    ∀ x ∈ (stripDots s).getLast?, isStripChar x = false := by
  intro x hx
  unfold stripDots at hx
  rw [List.getLast?_reverse] at hx
  exact dropWhile_head_not isStripChar _ x hx

/-- `stripDots` is the identity on a string that neither starts nor ends with
a space or a dot. -/
theorem stripDots_eq_self (s : List Char)
    (hh : ∀ x ∈ s.head?, isStripChar x = false)
    (hl : ∀ x ∈ s.getLast?, isStripChar x = false) :
    stripDots s = s := by
  unfold stripDots
  rw [dropWhile_eq_self_of_head isStripChar s hh]
  rw [dropWhile_eq_self_of_head isStripChar s.reverse (by simpa [List.head?_reverse] using hl)]
  exact List.reverse_reverse s

/-- Unfolding of `new_sanitize_filename` without the intermediate bindings. -/
theorem new_sanitize_filename_eq (s : List Char) :
    new_sanitize_filename s =
      if stripDots (removeAll s) = [] then scanned_document
      else if (stripDots (removeAll s)).length > 200 then (stripDots (removeAll s)).take 200
      else stripDots (removeAll s) := rfl

/-- Every character of a sanitized filename is clean: not forbidden, not a
control character. -/
theorem sanitize_mem_good (s : List Char) (c : Char)
    (hc : c ∈ new_sanitize_filename s) :
    c ∉ forbidden_chars ∧ 32 ≤ c.toNat := by
  rw [new_sanitize_filename_eq] at hc
  split_ifs at hc with h₁ h₂
  · revert hc
    revert c
    decide
  · have hmem := mem_stripDots (removeAll s) c (List.mem_of_mem_take hc)
    exact ((mem_removeAll s c).mp hmem).2
  · have hmem := mem_stripDots (removeAll s) c hc
    exact ((mem_removeAll s c).mp hmem).2

/-- A sanitized filename has at most 200 characters. -/
theorem sanitize_length (s : List Char) : (new_sanitize_filename s).length ≤ 200 := by
  rw [new_sanitize_filename_eq]
  split_ifs with h₁ h₂
  · decide
  · rw [List.length_take]
    exact min_le_left 200 _
  · omega

/-- A sanitized filename is never empty. -/
theorem sanitize_ne_nil (s : List Char) : new_sanitize_filename s ≠ [] := by
  rw [new_sanitize_filename_eq]
  split_ifs with h₁ h₂
  · decide
  · intro h
    have := congrArg List.length h
    rw [List.length_take] at this
    simp only [List.length_nil] at this
    omega
  · exact h₁

/-- A sanitized filename never starts with a space or a dot. -/
theorem sanitize_head_ok (s : List Char) :
    ∀ x ∈ (new_sanitize_filename s).head?, isStripChar x = false := by
  rw [new_sanitize_filename_eq]
  split_ifs with h₁ h₂
  · decide
  · intro x hx
    apply stripDots_head_not (removeAll s) x
    cases hst : stripDots (removeAll s) with
    | nil => rw [hst] at hx; simp at hx
    | cons a t =>
        rw [hst] at hx
        rw [List.take_succ_cons] at hx
        simpa using hx
  · exact stripDots_head_not (removeAll s)

/-- The sanitizer is the identity on a non-empty clean name of bounded length
that neither starts nor ends with a space or a dot. -/
theorem sanitize_eq_self_of_clean (s : List Char)
    (hne : s ≠ []) (hlen : s.length ≤ 200)
    (hgood : ∀ c ∈ s, c ∉ forbidden_chars ∧ 32 ≤ c.toNat)
    (hh : ∀ x ∈ s.head?, isStripChar x = false)
    (hl : ∀ x ∈ s.getLast?, isStripChar x = false) :
    new_sanitize_filename s = s := by
  rw [new_sanitize_filename_eq, removeAll_eq_self s hgood, stripDots_eq_self s hh hl]
  rw [if_neg hne, if_neg (by omega)]

/-- The sample word-character class has the properties C10 assumes of the
Unicode class `\w`: its characters are not forbidden, not control characters,
and neither spaces nor dots. -/
theorem sampleWordChar_clean (c : Char) (h : sampleWordChar c = true) :
    c ∉ forbidden_chars ∧ 32 ≤ c.toNat ∧ isStripChar c = false := by
  have hranges : (65 ≤ c.toNat ∧ c.toNat ≤ 90) ∨ (97 ≤ c.toNat ∧ c.toNat ≤ 122) ∨
      (48 ≤ c.toNat ∧ c.toNat ≤ 57) ∨ c.toNat = 95 ∨
      (0x4E00 ≤ c.toNat ∧ c.toNat ≤ 0x9FFF) := by
    simp only [sampleWordChar, Bool.or_eq_true, Bool.and_eq_true, decide_eq_true_eq] at h
    tauto
  refine ⟨?_, by omega, ?_⟩
  · intro hmem
    fin_cases hmem <;> simp [sampleWordChar] at h
  · by_cases hsp : c = ' '
    · subst hsp; simp [sampleWordChar] at h
    · by_cases hdot : c = '.'
      · subst hdot; simp [sampleWordChar] at h
      · simp [isStripChar, hsp, hdot]

/-- A membership in `getLast?` yields a membership in the list. -/
theorem mem_of_mem_getLast? (l : List Char) (x : Char) (hx : x ∈ l.getLast?) : x ∈ l := by
  obtain ⟨h, rfl⟩ := List.mem_getLast?_eq_getLast hx
  exact List.getLast_mem h

/-! ## The claims -/

/-- C1: for every input string, the filename sanitizer returns a string that
contains none of the forbidden characters and no control character
(code points 0-31).  (`_sanitize_filename` is by definition the same function
as `new_sanitize_filename`.) -/
theorem C1_sanitizer_no_forbidden_or_control (s : List Char) (c : Char)
    (hc : c ∈ new_sanitize_filename s) :
    c ∉ forbidden_chars ∧ ¬ c.toNat < 32 := by
  have := sanitize_mem_good s c hc
  exact ⟨this.1, by omega⟩

theorem C1_witness :
    'a' ∈ new_sanitize_filename ['a', '<', 'b'] ∧
    ('a' ∉ forbidden_chars ∧ ¬ 'a'.toNat < 32) :=
  ⟨by decide, C1_sanitizer_no_forbidden_or_control ['a', '<', 'b'] 'a' (by decide)⟩

/-- C2: the sanitizer's result is at most 200 characters long. -/
theorem C2_sanitizer_length_le_200 (s : List Char) :
    (new_sanitize_filename s).length ≤ 200 :=
  sanitize_length s

/-- C6: the sanitizer leaves clean names (no forbidden characters, no control
characters, not starting or ending with a space or a dot, non-empty, at most
200 characters) unchanged; in particular non-ASCII (CJK) characters pass
through intact. -/
theorem C6_sanitizer_preserves_clean_input (s : List Char)
    (hne : s ≠ []) (hlen : s.length ≤ 200)
    (hgood : ∀ c ∈ s, c ∉ forbidden_chars ∧ ¬ c.toNat < 32)
    (hh : isStripChar (s.headD 'x') = false)
    (hl : isStripChar (s.getLastD 'x') = false) :
    new_sanitize_filename s = s := by
  apply sanitize_eq_self_of_clean s hne hlen
  · intro c hc
    exact ⟨(hgood c hc).1, by have := (hgood c hc).2; omega⟩
  · intro x hx
    cases s with
    | nil => simp at hx
    | cons a t =>
        simp only [List.head?_cons, Option.mem_def, Option.some.injEq] at hx
        subst hx
        simpa using hh
  · intro x hx
    have hd : s.getLastD 'x' = x := by
      rw [List.getLastD_eq_getLast?, Option.mem_def.mp hx]
      rfl
    rw [← hd]
    exact hl

theorem C6_witness :
    ("测试文档".toList ≠ [] ∧ "测试文档".toList.length ≤ 200 ∧
     (∀ c ∈ "测试文档".toList, c ∉ forbidden_chars ∧ ¬ c.toNat < 32) ∧
     isStripChar ("测试文档".toList.headD 'x') = false ∧
     isStripChar ("测试文档".toList.getLastD 'x') = false) ∧
    new_sanitize_filename "测试文档".toList = "测试文档".toList :=
  ⟨⟨by decide, by decide, by decide, by decide, by decide⟩,
   C6_sanitizer_preserves_clean_input "测试文档".toList
     (by decide) (by decide) (by decide) (by decide) (by decide)⟩

/-- Unfolding of `sanitize_ref` without the intermediate bindings. -/
theorem sanitize_ref_eq (s : List Char) :
    sanitize_ref s =
      if stripDots (s.filter (fun c => !(decide (c ∈ forbidden_chars) || decide (c.toNat < 32)))) = []
      then scanned_document
      else (stripDots (s.filter (fun c => !(decide (c ∈ forbidden_chars) || decide (c.toNat < 32))))).take 200 :=
  rfl

/-- The deletion loop of the code computes the one-pass deletion of the
reference definition. -/
theorem removeAll_eq_ref_filter (s : List Char) :
    removeAll s = s.filter (fun c => !(decide (c ∈ forbidden_chars) || decide (c.toNat < 32))) := by
  unfold removeAll
  rw [foldl_removeChar_eq_filter]
  apply List.filter_congr
  intro x _
  by_cases h1 : x ∈ forbidden_chars <;> by_cases h2 : x.toNat < 32 <;>
    simp [h1, h2, List.mem_append, mem_control_chars]

/-- C4: the default filename handed to the save dialog is the sanitized
extension-free base name of the OCR file name with `".docx"` appended, and so
always ends in `".docx"`. -/
theorem C4_default_filename_ends_docx (file_name : List Char) :
    simulate_default_filename file_name =
      _sanitize_filename (splitextRoot file_name) ++ ".docx".toList ∧
    ".docx".toList <:+ simulate_default_filename file_name :=
  ⟨rfl, ⟨_sanitize_filename (splitextRoot file_name), rfl⟩⟩

/-- C5: both converter invocations put the pandoc executable first, the
Markdown input file second, the output path immediately after `"-o"`, and
contain `"--to"` followed by `"docx"`. -/
theorem C5_pandoc_command_structure (exe input out : String) :
    ((pandoc_cmd_debug exe input out).head? = some exe ∧
     (pandoc_cmd_debug exe input out)[1]? = some input ∧
     ["-o", out] <:+: pandoc_cmd_debug exe input out ∧
     ["--to", "docx"] <:+: pandoc_cmd_debug exe input out) ∧
    ((pandoc_cmd_app_flow exe input out).head? = some exe ∧
     (pandoc_cmd_app_flow exe input out)[1]? = some input ∧
     ["-o", out] <:+: pandoc_cmd_app_flow exe input out ∧
     ["--to", "docx"] <:+: pandoc_cmd_app_flow exe input out) :=
  ⟨⟨rfl, rfl,
    ⟨[exe, input], ["--from", "markdown", "--to", "docx"], rfl⟩,
    ⟨[exe, input, "-o", out, "--from", "markdown"], [], rfl⟩⟩,
   ⟨rfl, rfl,
    ⟨[exe, input], ["--from", "gfm+pipe_tables+hard_line_breaks", "--to", "docx", "--wrap=none"], rfl⟩,
    ⟨[exe, input, "-o", out, "--from", "gfm+pipe_tables+hard_line_breaks"], ["--wrap=none"], rfl⟩⟩⟩

/-- C7: the code's sanitizer coincides with the reference definition of the
specification: delete forbidden and control characters, strip spaces and
dots at both ends, fall back to "scanned_document" when empty, otherwise
truncate to the first 200 characters. -/
theorem C7_sanitizer_eq_reference (s : List Char) :
    new_sanitize_filename s = sanitize_ref s := by
  rw [new_sanitize_filename_eq, sanitize_ref_eq, ← removeAll_eq_ref_filter]
  split_ifs with h₁ h₂
  · rfl
  · rfl
  · rw [List.take_of_length_le (by omega)]

/-- C8: the sanitizer's result is never empty, and whenever deleting and
stripping leaves the empty string it returns the fallback name
"scanned_document". -/
theorem C8_sanitizer_nonempty_with_fallback (s : List Char) :
    new_sanitize_filename s ≠ [] ∧
    (stripDots (removeAll s) = [] → new_sanitize_filename s = scanned_document) := by
  refine ⟨sanitize_ne_nil s, fun h => ?_⟩
  rw [new_sanitize_filename_eq, if_pos h]

theorem C8_witness :
    stripDots (removeAll "..".toList) = [] ∧
    new_sanitize_filename "..".toList ≠ [] ∧
    new_sanitize_filename "..".toList = scanned_document :=
  ⟨by decide, (C8_sanitizer_nonempty_with_fallback "..".toList).1,
   (C8_sanitizer_nonempty_with_fallback "..".toList).2 (by decide)⟩

/-- A 202-character name: 199 letters, a dot, two letters.  Sanitizing leaves
202 clean characters, and truncation to 200 cuts right after the dot, so the
sanitized result ends in a dot and a second pass strips it. -/
def c9_input : List Char := List.replicate 199 'a' ++ ['.', 'a', 'a']

set_option maxRecDepth 40000 in
/-- C9 (counterexample): the sanitizer is not idempotent.  On `c9_input`
truncation leaves a trailing dot, which a second application strips. -/
theorem C9_idempotence_counterexample :
    new_sanitize_filename (new_sanitize_filename c9_input) ≠ new_sanitize_filename c9_input := by
  decide

/-- C9 (amended): the sanitizer is idempotent on every input whose sanitized
result does not end with a space or a dot (truncation to 200 characters is the
only way a trailing space or dot can survive). -/
theorem C9_idempotent_unless_truncated_tail (s : List Char)
    (h : isStripChar ((new_sanitize_filename s).getLastD 'x') = false) :
    new_sanitize_filename (new_sanitize_filename s) = new_sanitize_filename s := by
  apply sanitize_eq_self_of_clean _ (sanitize_ne_nil s) (sanitize_length s)
  · intro c hc
    exact sanitize_mem_good s c hc
  · exact sanitize_head_ok s
  · intro x hx
    have hd : (new_sanitize_filename s).getLastD 'x' = x := by
      rw [List.getLastD_eq_getLast?, Option.mem_def.mp hx]
      rfl
    rw [← hd]
    exact h

theorem C9_idempotent_witness :
    isStripChar ((new_sanitize_filename "abc".toList).getLastD 'x') = false ∧
    new_sanitize_filename (new_sanitize_filename "abc".toList) =
      new_sanitize_filename "abc".toList :=
  ⟨by decide, C9_idempotent_unless_truncated_tail "abc".toList (by decide)⟩

/-- C10: on a non-empty name of at most 200 characters made only of Unicode
word characters and hyphens, the old and the new sanitizer both return the
input unchanged, hence agree.  The theorem is parametric in the word-character
class `\w` and assumes of it only facts true of every Unicode word character
(an alphanumeric character or the underscore): it is not one of the nine
forbidden punctuation characters, not a control character, and neither a
space nor a dot. -/
theorem C10_old_new_agree_on_word_names (wordClass : Char → Bool)
    (hword : ∀ c, wordClass c = true →
      c ∉ forbidden_chars ∧ 32 ≤ c.toNat ∧ isStripChar c = false)
    (s : List Char) (hne : s ≠ []) (hlen : s.length ≤ 200)
    (hw : ∀ c ∈ s, wordClass c = true ∨ c = '-') :
    old_sanitize_filename wordClass s = s ∧ new_sanitize_filename s = s := by
  have hclean : ∀ c ∈ s, (c ∉ forbidden_chars ∧ 32 ≤ c.toNat) ∧ isStripChar c = false := by
    intro c hc
    rcases hw c hc with h | rfl
    · obtain ⟨h1, h2, h3⟩ := hword c h
      exact ⟨⟨h1, h2⟩, h3⟩
    · exact ⟨⟨by decide, by decide⟩, by decide⟩
  constructor
  · unfold old_sanitize_filename
    apply List.filter_eq_self.mpr
    intro a ha
    rcases hw a ha with h | rfl
    · simp [h]
    · simp
  · apply sanitize_eq_self_of_clean s hne hlen
    · intro c hc
      exact (hclean c hc).1
    · intro x hx
      cases s with
      | nil => simp at hx
      | cons a t =>
          have hax : a = x := by simpa using hx
          subst hax
          exact (hclean a (by simp)).2
    · intro x hx
      exact (hclean x (mem_of_mem_getLast? s x hx)).2

theorem C10_witness :
    (∀ c, sampleWordChar c = true →
      c ∉ forbidden_chars ∧ 32 ≤ c.toNat ∧ isStripChar c = false) ∧
    ("测试_file-1".toList ≠ [] ∧ "测试_file-1".toList.length ≤ 200 ∧
     (∀ c ∈ "测试_file-1".toList, sampleWordChar c = true ∨ c = '-')) ∧
    old_sanitize_filename sampleWordChar "测试_file-1".toList = "测试_file-1".toList ∧
    new_sanitize_filename "测试_file-1".toList = "测试_file-1".toList :=
  ⟨sampleWordChar_clean,
   ⟨by decide, by decide, by decide⟩,
   C10_old_new_agree_on_word_names sampleWordChar sampleWordChar_clean
     "测试_file-1".toList (by decide) (by decide) (by decide)⟩

end Saomiao
